import Mathlib

/-!
Shallow embedding of the hyperpulse trade-ingestion and aggregation core
(`src/core/websocket_client.py` and `src/core/data_processor.py`).

Conventions of the embedding:
* Python floats are modelled by `ℚ` (exact arithmetic over the same field
  operations the code performs); timestamps are integers in milliseconds
  (`datetime.fromtimestamp(time/1000)` is order- and bucket-preserving, so
  we keep the raw millisecond value).
* Python `dict`s (insertion-ordered) are modelled by association lists,
  where assignment to an existing key updates in place and assignment to a
  fresh key appends (`alistSet`), exactly the observable dict semantics.
* `collections.deque(maxlen=n)` is modelled by a list together with the
  append operation `dequeAppend` that drops from the left on overflow.
* `queue.Queue(maxsize=n).put_nowait` is modelled by `queuePutNowait`,
  which appends when below capacity and leaves the queue unchanged (drop)
  when full, mirroring the `except queue.Full: pass-with-log` handler.
* The feed's side codes are the literal strings used by the code:
  `"B"` (buy) and `"A"` (sell/ask).
-/

namespace HyperPulse

/-- `HEARTBEAT_INTERVAL = 30` seconds (`websocket_client.py`). -/
def HEARTBEAT_INTERVAL : Int := 30

/-- `MAX_RECONNECT_ATTEMPTS = 5` (`websocket_client.py`). -/
def MAX_RECONNECT_ATTEMPTS : Nat := 5

/-- `QUEUE_SIZE = 1000`, capacity of `cumulative_stats_queue`. -/
def QUEUE_SIZE : Nat := 1000

/-- `maxlen=1000` of the `deque`s `trade_data` and `trade_data_by_coin[coin]`. -/
def DEQUE_MAXLEN : Nat := 1000

/-- `MAX_HISTORY_MINUTES = 30` (`data_processor.py`). -/
def MAX_HISTORY_MINUTES : Int := 30

/-- `MIN_RECORDS_THRESHOLD = 5` (`data_processor.py`). -/
def MIN_RECORDS_THRESHOLD : Nat := 5

/-- The `trade_info` dict built in `on_message` for each valid record. -/
structure TradeInfo where
  timestamp : Int
  side : String
  price : ℚ
  volume : ℚ
  total : ℚ
  coin : String
  buyer : String
  seller : String
  deriving Repr, DecidableEq

/-- A raw record of `message['data']` that has passed the required-field
check of `on_message` (`side`, `time`, `px`, `sz`, `coin` all present);
`users` defaults to `[]` when absent, as in `trade.get('users', [])`. -/
structure RawTrade where
  side : String
  time : Int
  px : ℚ
  sz : ℚ
  coin : String
  users : List String
  deriving Repr, DecidableEq

/-- Buyer/seller attribution of `on_message`: with a non-empty user list,
side `"B"` takes the first user as buyer (seller = second user or
`"unknown"`); any other side takes the first user as seller (buyer =
second user or `"unknown"`); an empty list leaves both `"unknown"`. -/
def attributeUsers (side : String) (users : List String) : String × String :=
  match users with
  | [] => ("unknown", "unknown")
  | u0 :: rest =>
    if side = "B" then (u0, rest.headD "unknown")
    else (rest.headD "unknown", u0)

/-- The `trade_info` construction in `on_message`: timestamp from `time`,
price `float(px)`, volume `float(sz)`, `total = float(sz) * float(px)`,
buyer/seller from `attributeUsers`. -/
def mkTradeInfo (t : RawTrade) : TradeInfo :=
  let bs := attributeUsers t.side t.users
  { timestamp := t.time
    side := t.side
    price := t.px
    volume := t.sz
    total := t.sz * t.px
    coin := t.coin
    buyer := bs.1
    seller := bs.2 }

/-- `deque(maxlen=cap).append`: append on the right, evicting from the
left whenever the length would exceed `cap`. -/
def dequeAppend (cap : Nat) (l : List α) (x : α) : List α :=
  if cap < (l ++ [x]).length then (l ++ [x]).drop ((l ++ [x]).length - cap) else l ++ [x]

/-- The last `n` elements of a list (the retained suffix of a bounded deque). -/
def takeLast (n : Nat) (l : List α) : List α :=
  l.drop (l.length - n)

/-- `Queue(maxsize=cap).put_nowait` under the `except queue.Full` handler of
`on_message`: enqueue when below capacity, otherwise drop the element. -/
def queuePutNowait (cap : Nat) (q : List α) (x : α) : List α :=
  if q.length < cap then q ++ [x] else q

/-- Python-dict assignment on an association list: overwrite in place if the
key exists, append at the end otherwise. -/
def alistSet (m : List (String × β)) (k : String) (v : β) : List (String × β) :=
  match m with
  | [] => [(k, v)]
  | (k1, v1) :: rest => if k1 = k then (k1, v) :: rest else (k1, v1) :: alistSet rest k v

/-- Key membership in an association list (`k in d` for a Python dict). -/
def alistHas (m : List (String × β)) (k : String) : Bool :=
  m.any (fun p => p.1 = k)

/-- Lookup in an association list (`d[k]` when present). -/
def alistGet : List (String × β) → String → Option β
  | [], _ => none
  | p :: rest, k => if p.1 = k then some p.2 else alistGet rest k

/-- The mutable state touched by the per-record body of `on_message`:
the global `trade_data` deque, the `trade_data_by_coin` dict of deques,
and the `cumulative_stats_queue`. -/
structure IngestState where
  trade_data : List TradeInfo
  trade_data_by_coin : List (String × List TradeInfo)
  cumulative_stats_queue : List TradeInfo
  deriving Repr, DecidableEq

/-- Append into `trade_data_by_coin[coin]`; `defaultdict(lambda: deque(maxlen=cap))`
creates an empty deque on first access. -/
def byCoinAppend (cap : Nat) (m : List (String × List TradeInfo)) (coin : String)
    (x : TradeInfo) : List (String × List TradeInfo) :=
  alistSet m coin (dequeAppend cap ((alistGet m coin).getD []) x)

/-- The per-record effect of `on_message` on a valid record: build the
`trade_info`, append it to `trade_data` and `trade_data_by_coin[coin]`,
then `put_nowait` it on `cumulative_stats_queue` (dropped when full). -/
def onMessageTrade (storeCap qCap : Nat) (s : IngestState) (t : RawTrade) : IngestState :=
  { trade_data := dequeAppend storeCap s.trade_data (mkTradeInfo t)
    trade_data_by_coin := byCoinAppend storeCap s.trade_data_by_coin t.coin (mkTradeInfo t)
    cumulative_stats_queue := queuePutNowait qCap s.cumulative_stats_queue (mkTradeInfo t) }

/-- `get_trade_data(coin)`: the per-coin deque when `coin` is truthy and a
key of `trade_data_by_coin`, the global `trade_data` deque otherwise. -/
def get_trade_data (byCoin : List (String × List TradeInfo)) (globalData : List TradeInfo)
    (coin : Option String) : List TradeInfo :=
  match coin with
  | some c => if c ≠ "" ∧ alistHas byCoin c then ((alistGet byCoin c).getD []) else globalData
  | none => globalData

/-! ### Windowed aggregator (`data_processor.py`) -/

/-- `clean_historical_data`, restricted to one coin's frame: keep records
with `timestamp >= now - timedelta(minutes=MAX_HISTORY_MINUTES)`
(milliseconds). The coin's entry is dropped when this leaves it empty,
which the list model represents by the empty list. -/
def clean_historical_data (now : Int) (hist : List TradeInfo) : List TradeInfo :=
  hist.filter (fun t => decide (now - MAX_HISTORY_MINUTES * 60000 ≤ t.timestamp))

/-- `timestamp in existing_timestamps` for the dedup step of
`process_trade_data`. -/
def tsMember (hist : List TradeInfo) (ts : Int) : Bool :=
  hist.any (fun h => h.timestamp = ts)

/-- Ordering used by `sort_values('timestamp')`. -/
def tsLE (a b : TradeInfo) : Prop := a.timestamp ≤ b.timestamp

instance : DecidableRel tsLE := fun a b => inferInstanceAs (Decidable (a.timestamp ≤ b.timestamp))

instance : IsTotal TradeInfo tsLE := ⟨fun a b => Int.le_total a.timestamp b.timestamp⟩

instance : IsTrans TradeInfo tsLE := ⟨fun _ _ _ h1 h2 => le_trans h1 h2⟩

/-- The history-update step of `process_trade_data`: when the retained
frame is empty the new frame replaces it; otherwise the records whose
timestamp is not already present are concatenated and the result is
sorted by timestamp. -/
def mergedHistory (histC : List TradeInfo) (newData : List TradeInfo) : List TradeInfo :=
  if histC.isEmpty then newData
  else
    let trulyNew := newData.filter (fun t => ¬ tsMember histC t.timestamp)
    if trulyNew.isEmpty then histC
    else List.insertionSort tsLE (histC ++ trulyNew)

/-- The window filter of `process_trade_data`:
`timestamp >= now - timedelta(minutes=time_interval)` (milliseconds). -/
def windowSelect (now : Int) (timeInterval : Int) (hist : List TradeInfo) : List TradeInfo :=
  hist.filter (fun t => decide (now - timeInterval * 60000 ≤ t.timestamp))

/-- `buy_volume = interval_df.loc[interval_df['side'] == 'B', 'total'].sum()`. -/
def buyVolume (l : List TradeInfo) : ℚ :=
  ((l.filter (fun t => t.side = "B")).map (·.total)).sum

/-- `sell_volume = interval_df.loc[interval_df['side'] == 'A', 'total'].sum()`. -/
def sellVolume (l : List TradeInfo) : ℚ :=
  ((l.filter (fun t => t.side = "A")).map (·.total)).sum

/-- `buy_count = (interval_df['side'] == 'B').sum()`. -/
def buyCount (l : List TradeInfo) : Nat :=
  (l.filter (fun t => t.side = "B")).length

/-- `sell_count = (interval_df['side'] == 'A').sum()`. -/
def sellCount (l : List TradeInfo) : Nat :=
  (l.filter (fun t => t.side = "A")).length

/-- `sentiment = (buy_volume / total_volume * 100) if total_volume > 0 else 50`. -/
def volumeSentiment (l : List TradeInfo) : ℚ :=
  if 0 < buyVolume l + sellVolume l then buyVolume l / (buyVolume l + sellVolume l) * 100
  else 50

/-- `count_sentiment = (buy_count / total_count * 100) if total_count > 0 else 50`. -/
def countSentiment (l : List TradeInfo) : ℚ :=
  if 0 < buyCount l + sellCount l then
    (buyCount l : ℚ) / ((buyCount l : ℚ) + (sellCount l : ℚ)) * 100
  else 50

/-- `time_bin = timestamp.dt.floor('1s')`, in whole seconds. -/
def timeBin (t : TradeInfo) : Int := Int.ediv t.timestamp 1000

/-- One cell of the pivot table: the summed `total` of records of the given
side in the given one-second bucket. -/
def binVolume (l : List TradeInfo) (side : String) (bin : Int) : ℚ :=
  ((l.filter (fun t => t.side = side ∧ timeBin t = bin)).map (·.total)).sum

/-- The row index of the pivot table: the distinct one-second buckets of the
window, ascending. -/
def timeBins (l : List TradeInfo) : List Int :=
  List.insertionSort (· ≤ ·) (l.map timeBin).dedup

/-- `interval_df.pivot_table(index='time_bin', columns='side', values='total',
aggfunc='sum').fillna(0)`, as rows `(bucket, Σ total side 'B', Σ total side 'A')`. -/
def volume_by_time (l : List TradeInfo) : List (Int × ℚ × ℚ) :=
  (timeBins l).map (fun b => (b, binVolume l "B" b, binVolume l "A" b))

/-- The numeric outcome of one `process_trade_data` call
(`interval_df, volume_by_time, sentiment, count_sentiment`). -/
structure AggregationResult where
  records : List TradeInfo
  volumeByTime : List (Int × ℚ × ℚ)
  sentiment : ℚ
  count_sentiment : ℚ
  deriving Repr, DecidableEq

/-- One call of `process_trade_data(time_interval, coin)` as a function of
the coin's retained history and the snapshot returned by `get_trade_data`:
prune the history, return the no-data outcome when the snapshot is empty,
merge-and-dedup, select the trailing window, return the
insufficient-data outcome (`None, None, None, None`) below
`MIN_RECORDS_THRESHOLD`, and the computed metrics otherwise. The second
component is the coin's history after the call. -/
def process_trade_data (now timeInterval : Int) (hist : List TradeInfo)
    (newData : List TradeInfo) : Option AggregationResult × List TradeInfo :=
  let hist1 := clean_historical_data now hist
  if newData.isEmpty then (none, hist1)
  else
    let merged := mergedHistory hist1 newData
    let intervalDf := windowSelect now timeInterval merged
    if intervalDf.length < MIN_RECORDS_THRESHOLD then (none, merged)
    else
      (some { records := intervalDf
              volumeByTime := volume_by_time intervalDf
              sentiment := volumeSentiment intervalDf
              count_sentiment := countSentiment intervalDf }, merged)

/-! ### Cumulative statistics ledger (`data_processor.py`) -/

/-- One user's entry of `cumulative_user_stats[coin]`. -/
structure UserStat where
  buy_count : Nat
  sell_count : Nat
  buy_volume : ℚ
  sell_volume : ℚ
  deriving Repr, DecidableEq

/-- `{'buy_count': 0, 'sell_count': 0, 'buy_volume': 0, 'sell_volume': 0}`. -/
def emptyUserStat : UserStat := ⟨0, 0, 0, 0⟩

/-- `cumulative_user_stats[coin]`: one coin's user map. -/
abbrev CoinStats := List (String × UserStat)

/-- `cumulative_user_stats`: `{coin: {user: UserStat}}`. -/
abbrev CumulativeStats := List (String × CoinStats)

/-- Update the value stored at an existing key `k` in place
(`d[k] = f(d[k])` on a Python dict). -/
def alistModify (m : List (String × β)) (k : String) (f : β → β) : List (String × β) :=
  m.map (fun p => if p.1 = k then (p.1, f p.2) else p)

/-- Increment helper for the buyer branch of `update_cumulative_stats`. -/
def bumpBuy (inner : CoinStats) (user : String) (total : ℚ) : CoinStats :=
  let cur := (alistGet inner user).getD emptyUserStat
  alistSet inner user
    { cur with buy_count := cur.buy_count + 1, buy_volume := cur.buy_volume + total }

/-- Increment helper for the seller branch of `update_cumulative_stats`. -/
def bumpSell (inner : CoinStats) (user : String) (total : ℚ) : CoinStats :=
  let cur := (alistGet inner user).getD emptyUserStat
  alistSet inner user
    { cur with sell_count := cur.sell_count + 1, sell_volume := cur.sell_volume + total }

/-- `update_cumulative_stats(trade_info)`: return unchanged on falsy coin,
side, or both-parties-falsy; ensure the coin's map exists; on side `'B'`
with truthy buyer bump the buyer's buy counters by `(1, total)`; on side
`'A'` with truthy seller bump the seller's sell counters. Python
truthiness of a string is non-emptiness, so the `"unknown"` sentinel
passes the `and buyer`/`and seller` checks. -/
def update_cumulative_stats (stats : CumulativeStats) (t : TradeInfo) : CumulativeStats :=
  if t.coin = "" ∨ t.side = "" ∨ (t.buyer = "" ∧ t.seller = "") then stats
  else
    let stats1 := if alistHas stats t.coin then stats else alistSet stats t.coin []
    let stats2 :=
      if t.side = "B" ∧ t.buyer ≠ "" then
        alistModify stats1 t.coin (fun inner => bumpBuy inner t.buyer t.total)
      else stats1
    if t.side = "A" ∧ t.seller ≠ "" then
      alistModify stats2 t.coin (fun inner => bumpSell inner t.seller t.total)
    else stats2

/-- `save_cumulative_stats`: the dict-comprehension copy that is serialized
with `json.dump`. `json.dump`/`json.load` preserve the nested object
structure and key order; `int` values round-trip exactly and `float`
values are written with `repr`'s shortest round-trip representation, so
numeric values are restored bit-for-bit. The serialized file is therefore
modelled by the same nested map. -/
def save_cumulative_stats (m : CumulativeStats) : CumulativeStats :=
  m.map (fun cu => (cu.1, cu.2.map (fun us => us)))

/-- The inner loop of `load_cumulative_stats`:
`cumulative_user_stats[coin][user] = stats` for each user of the file,
in file order. -/
def loadUsers (inner : CoinStats) (users : CoinStats) : CoinStats :=
  users.foldl (fun acc p => alistSet acc p.1 p.2) inner

/-- `load_cumulative_stats`, merging the deserialized file into the current
in-memory ledger: for each coin of the file in order, create an empty
entry when the coin is absent, then assign each user's stats in order. -/
def load_cumulative_stats (cur : CumulativeStats) (file : CumulativeStats) : CumulativeStats :=
  file.foldl
    (fun acc cu =>
      let acc1 := if alistHas acc cu.1 then acc else alistSet acc cu.1 []
      alistModify acc1 cu.1 (fun inner => loadUsers inner cu.2))
    cur

/-- `total_volume` and `total_count` of one user, the ranking key of
`clean_cumulative_stats`. -/
def totalKey (s : UserStat) : ℚ × ℚ :=
  (s.buy_volume + s.sell_volume, (s.buy_count : ℚ) + (s.sell_count : ℚ))

/-- Descending lexicographic comparison on `(total_volume, total_count)`,
the order of `sort_values(['total_volume', 'total_count'], ascending=False)`. -/
def rankDesc (a b : String × UserStat) : Prop :=
  (totalKey b.2).1 < (totalKey a.2).1 ∨
    ((totalKey a.2).1 = (totalKey b.2).1 ∧ (totalKey b.2).2 ≤ (totalKey a.2).2)

instance : DecidableRel rankDesc := fun a b =>
  inferInstanceAs (Decidable ((totalKey b.2).1 < (totalKey a.2).1 ∨
    ((totalKey a.2).1 = (totalKey b.2).1 ∧ (totalKey b.2).2 ≤ (totalKey a.2).2)))

instance : IsTotal (String × UserStat) rankDesc := by
  constructor
  intro a b
  rcases lt_trichotomy (totalKey a.2).1 (totalKey b.2).1 with h | h | h
  · exact Or.inr (Or.inl h)
  · rcases le_total (totalKey b.2).2 (totalKey a.2).2 with h2 | h2
    · exact Or.inl (Or.inr ⟨h, h2⟩)
    · exact Or.inr (Or.inr ⟨h.symm, h2⟩)
  · exact Or.inl (Or.inl h)

instance : IsTrans (String × UserStat) rankDesc := by
  constructor
  rintro a b c (h1 | ⟨h1, h1'⟩) (h2 | ⟨h2, h2'⟩)
  · exact Or.inl (lt_trans h2 h1)
  · exact Or.inl (h2 ▸ h1)
  · exact Or.inl (lt_of_lt_of_le h2 (le_of_eq h1.symm))
  · exact Or.inr ⟨h1.trans h2, le_trans h2' h1'⟩

/-- The per-coin body of `clean_cumulative_stats`: when the user count
exceeds the cap, sort the users by `(total_volume, total_count)`
descending, mark the first `max_users_per_coin` as active, and delete
every other user from the dict (retained users keep their dict order). -/
def clean_coin_stats (maxUsers : Nat) (users : CoinStats) : CoinStats :=
  if maxUsers < users.length then
    let sorted := List.insertionSort rankDesc users
    let active := (sorted.take maxUsers).map (·.1)
    users.filter (fun u => u.1 ∈ active)
  else users

/-- `total_cleaned` of `clean_cumulative_stats`. -/
def cleanedCount (maxUsers : Nat) (m : CumulativeStats) : Nat :=
  (m.map (fun cu => cu.2.length - (clean_coin_stats maxUsers cu.2).length)).sum

/-- `clean_cumulative_stats(max_users_per_coin)`: clean every coin and,
when `total_cleaned > 0`, call `save_cumulative_stats` immediately.
The boolean records whether that save was triggered. -/
def clean_cumulative_stats (maxUsers : Nat) (m : CumulativeStats) : CumulativeStats × Bool :=
  (m.map (fun cu => (cu.1, clean_coin_stats maxUsers cu.2)), decide (0 < cleanedCount maxUsers m))

/-! ### Connection manager (`websocket_client.py`) -/

/-- The `connection_status` dict. -/
structure ConnectionStatus where
  connected : Bool
  last_message_time : Int
  last_error : Option String
  error_time : Option Int
  reconnect_count : Nat
  deriving Repr, DecidableEq

/-- The effect of one `start_websocket` run on `connection_status`: on
success, `connected = True`, `last_message_time = now` and the error
fields are cleared — `reconnect_count` is not touched; on failure,
`connected = False` and the error fields are set. -/
def start_websocket_status (s : ConnectionStatus) (now : Int) (success : Bool)
    (err : String) : ConnectionStatus :=
  if success then
    { s with connected := true, last_message_time := now,
             last_error := none, error_time := none }
  else
    { s with connected := false, last_error := some err, error_time := some now }

/-- One iteration of the `check_connection_status` monitor loop: mark the
connection stale after `HEARTBEAT_INTERVAL` silent seconds; when
disconnected with a current coin, either launch a reconnect attempt and
increment `reconnect_count` (while below `MAX_RECONNECT_ATTEMPTS`) or
sleep the longer cooldown and reset the counter to `0`. The boolean
reports whether a reconnect attempt was launched this iteration. -/
def check_connection_step (s : ConnectionStatus) (now : Int) (hasCoin : Bool)
    (wsSuccess : Bool) (err : String) : ConnectionStatus × Bool :=
  let s1 :=
    if s.connected ∧ HEARTBEAT_INTERVAL < now - s.last_message_time then
      { s with connected := false }
    else s
  if ¬s1.connected ∧ hasCoin then
    if s1.reconnect_count < MAX_RECONNECT_ATTEMPTS then
      let s2 := start_websocket_status s1 now wsSuccess err
      ({ s2 with reconnect_count := s1.reconnect_count + 1 }, true)
    else
      ({ s1 with reconnect_count := 0 }, false)
  else (s1, false)

/-! ### Shared sample data for concrete instances -/

/-- A sample trade record. -/
def mkSample (ts : Int) (side : String) (tot : ℚ) : TradeInfo :=
  { timestamp := ts, side := side, price := 1, volume := tot, total := tot,
    coin := "BTC", buyer := "b", seller := "s" }

/-- The spec's concrete window: 6 BUY trades of notional 100 and 4 SELL
trades of notional 50, one second apart. -/
def sampleTrades : List TradeInfo :=
  [mkSample 0 "B" 100, mkSample 1000 "B" 100, mkSample 2000 "B" 100,
   mkSample 3000 "B" 100, mkSample 4000 "B" 100, mkSample 5000 "B" 100,
   mkSample 6000 "A" 50, mkSample 7000 "A" 50, mkSample 8000 "A" 50,
   mkSample 9000 "A" 50]

/-! ### List and association-list lemmas -/

theorem dequeAppend_eq_takeLast (cap : Nat) (l : List α) (x : α) :
    dequeAppend cap l x = takeLast cap (l ++ [x]) := by
  unfold dequeAppend takeLast
  split
  · rfl
  · next h =>
    have h0 : (l ++ [x]).length - cap = 0 := by omega
    rw [h0, List.drop_zero]

theorem takeLast_length_le (n : Nat) (l : List α) : (takeLast n l).length ≤ n := by
  unfold takeLast
  rw [List.length_drop]
  omega

theorem dequeAppend_length_le (cap : Nat) (l : List α) (x : α) :
    (dequeAppend cap l x).length ≤ cap := by
  rw [dequeAppend_eq_takeLast]
  exact takeLast_length_le cap (l ++ [x])

theorem takeLast_append_right (n : Nat) (p s : List α) (h : n ≤ s.length) :
    takeLast n (p ++ s) = takeLast n s := by
  unfold takeLast
  rw [List.length_append]
  have h1 : p.length + s.length - n = p.length + (s.length - n) := by omega
  rw [h1, List.drop_append]

theorem takeLast_append_takeLast (n : Nat) (a b : List α) :
    takeLast n (takeLast n a ++ b) = takeLast n (a ++ b) := by
  by_cases h : n ≤ a.length
  · have hdrop : takeLast n a = a.drop (a.length - n) := rfl
    have hlen : n ≤ (a.drop (a.length - n) ++ b).length := by
      rw [List.length_append, List.length_drop]
      omega
    conv_rhs => rw [← List.take_append_drop (a.length - n) a, List.append_assoc]
    rw [takeLast_append_right _ _ _ hlen, hdrop]
  · have h0 : a.length - n = 0 := by omega
    have ha : takeLast n a = a := by
      unfold takeLast
      rw [h0, List.drop_zero]
    rw [ha]

theorem foldl_dequeAppend_eq (cap : Nat) (burst : List α) (init : List α)
    (h : init.length ≤ cap) :
    burst.foldl (dequeAppend cap) init = takeLast cap (init ++ burst) := by
  induction burst generalizing init with
  | nil =>
    have h0 : init.length - cap = 0 := by omega
    simp [takeLast, h0]
  | cons x xs ih =>
    rw [List.foldl_cons, ih _ (dequeAppend_length_le cap init x),
      dequeAppend_eq_takeLast, takeLast_append_takeLast, List.append_assoc,
      List.singleton_append]

theorem dequeAppend_of_full (cap : Nat) (l : List α) (x : α) (h : l.length = cap)
    (hcap : 0 < cap) : dequeAppend cap l x = l.tail ++ [x] := by
  unfold dequeAppend
  have hlen : (l ++ [x]).length = cap + 1 := by
    rw [List.length_append, List.length_singleton, h]
  rw [if_pos (by omega), hlen]
  have h1 : cap + 1 - cap = 1 := by omega
  rw [h1, List.drop_append_of_le_length (by omega), List.drop_one]

theorem mem_dequeAppend_self (cap : Nat) (l : List α) (x : α) (hcap : 0 < cap) :
    x ∈ dequeAppend cap l x := by
  rw [dequeAppend_eq_takeLast]
  unfold takeLast
  rw [List.length_append, List.length_singleton,
    List.drop_append_of_le_length (by omega)]
  exact List.mem_append_right _ (List.mem_singleton.mpr rfl)

theorem mem_alistSet (m : List (String × β)) (k : String) (v : β) (p : String × β)
    (hp : p ∈ alistSet m k v) : p ∈ m ∨ p = (k, v) := by
  induction m with
  | nil =>
    simp only [alistSet, List.mem_singleton] at hp
    exact Or.inr hp
  | cons q rest ih =>
    simp only [alistSet] at hp
    split at hp
    · next hq =>
      rcases List.mem_cons.mp hp with h | h
      · subst hq
        exact Or.inr (by rw [h])
      · exact Or.inl (List.mem_cons_of_mem _ h)
    · rcases List.mem_cons.mp hp with h | h
      · exact Or.inl (h ▸ List.mem_cons_self _ _)
      · rcases ih h with h2 | h2
        · exact Or.inl (List.mem_cons_of_mem _ h2)
        · exact Or.inr h2

theorem alistModify_cons (q : String × β) (rest : List (String × β)) (k : String)
    (f : β → β) :
    alistModify (q :: rest) k f =
      (if q.1 = k then (q.1, f q.2) else q) :: alistModify rest k f := by
  simp only [alistModify, List.map_cons]

theorem alistGet_alistSet_same (m : List (String × β)) (k : String) (v : β) :
    alistGet (alistSet m k v) k = some v := by
  induction m with
  | nil => simp [alistSet, alistGet]
  | cons q rest ih =>
    by_cases hq : q.1 = k
    · simp [alistSet, hq, alistGet]
    · simp [alistSet, hq, alistGet, ih]

theorem alistGet_alistSet_other (m : List (String × β)) (k k' : String) (v : β)
    (h : k' ≠ k) : alistGet (alistSet m k v) k' = alistGet m k' := by
  induction m with
  | nil => simp [alistSet, alistGet, Ne.symm h]
  | cons q rest ih =>
    by_cases hq : q.1 = k
    · have hq' : ¬q.1 = k' := by rw [hq]; exact Ne.symm h
      simp [alistSet, hq, alistGet, Ne.symm h]
    · simp only [alistSet, if_neg hq, alistGet, ih]

theorem alistGet_alistModify_same (m : List (String × β)) (k : String) (f : β → β) :
    alistGet (alistModify m k f) k = (alistGet m k).map f := by
  induction m with
  | nil => simp [alistModify, alistGet]
  | cons q rest ih =>
    rw [alistModify_cons]
    by_cases hq : q.1 = k
    · simp [alistGet, hq]
    · simp [alistGet, hq, ih]

theorem alistGet_alistModify_other (m : List (String × β)) (k k' : String) (f : β → β)
    (h : k' ≠ k) : alistGet (alistModify m k f) k' = alistGet m k' := by
  induction m with
  | nil => simp [alistModify, alistGet]
  | cons q rest ih =>
    rw [alistModify_cons]
    by_cases hq : q.1 = k
    · have hq' : ¬q.1 = k' := by rw [hq]; exact Ne.symm h
      simp [alistGet, hq, hq', Ne.symm h, ih]
    · simp [alistGet, hq, ih]

theorem alistGet_of_not_has (m : List (String × β)) (k : String)
    (h : alistHas m k = false) : alistGet m k = none := by
  induction m with
  | nil => rfl
  | cons q rest ih =>
    simp only [alistHas, List.any_cons, Bool.or_eq_false_iff] at h
    simp only [alistGet, if_neg (by simpa using h.1)]
    exact ih (by simp [alistHas, h.2])

theorem alistSet_of_not_has (m : List (String × β)) (k : String) (v : β)
    (h : alistHas m k = false) : alistSet m k v = m ++ [(k, v)] := by
  induction m with
  | nil => rfl
  | cons q rest ih =>
    simp only [alistHas, List.any_cons, Bool.or_eq_false_iff] at h
    simp only [alistSet, if_neg (by simpa using h.1), List.cons_append]
    rw [ih (by simp [alistHas, h.2])]

/-! ### Per-step invariants of the ingestion pipeline -/

theorem onMessageTrade_bounds (cap qCap : Nat) (s : IngestState) (t : RawTrade)
    (h2 : ∀ p ∈ s.trade_data_by_coin, p.2.length ≤ cap) :
    (onMessageTrade cap qCap s t).trade_data.length ≤ cap ∧
      ∀ p ∈ (onMessageTrade cap qCap s t).trade_data_by_coin, p.2.length ≤ cap := by
  refine ⟨dequeAppend_length_le _ _ _, ?_⟩
  intro p hp
  simp only [onMessageTrade, byCoinAppend] at hp
  rcases mem_alistSet _ _ _ _ hp with h | h
  · exact h2 p h
  · rw [h]
    exact dequeAppend_length_le _ _ _

theorem foldl_onMessageTrade_bounds (cap qCap : Nat) (trades : List RawTrade)
    (s0 : IngestState) (h1 : s0.trade_data.length ≤ cap)
    (h2 : ∀ p ∈ s0.trade_data_by_coin, p.2.length ≤ cap) :
    (trades.foldl (onMessageTrade cap qCap) s0).trade_data.length ≤ cap ∧
      ∀ p ∈ (trades.foldl (onMessageTrade cap qCap) s0).trade_data_by_coin,
        p.2.length ≤ cap := by
  induction trades generalizing s0 with
  | nil => exact ⟨h1, h2⟩
  | cons t ts ih =>
    rw [List.foldl_cons]
    exact ih _ (onMessageTrade_bounds cap qCap s0 t h2).1
      (onMessageTrade_bounds cap qCap s0 t h2).2

/-- C6: Every per-instrument recent-trade store and the global store stay
within the configured capacity 1000 across any sequence of ingested
trades; an append to a full deque evicts exactly the oldest (head)
element; and an arbitrary burst folded into a bounded deque retains
exactly the most recent `DEQUE_MAXLEN` events (the suffix of the append
stream), which is oldest-first eviction. -/
theorem C6_recent_store_capacity_and_eviction :
    (∀ (trades : List RawTrade) (s0 : IngestState),
      s0.trade_data.length ≤ DEQUE_MAXLEN →
      (∀ p ∈ s0.trade_data_by_coin, p.2.length ≤ DEQUE_MAXLEN) →
      (trades.foldl (onMessageTrade DEQUE_MAXLEN QUEUE_SIZE) s0).trade_data.length ≤
          DEQUE_MAXLEN ∧
        ∀ p ∈ (trades.foldl (onMessageTrade DEQUE_MAXLEN QUEUE_SIZE) s0).trade_data_by_coin,
          p.2.length ≤ DEQUE_MAXLEN) ∧
    (∀ (l : List TradeInfo) (x : TradeInfo), l.length = DEQUE_MAXLEN →
      dequeAppend DEQUE_MAXLEN l x = l.tail ++ [x]) ∧
    (∀ (init burst : List TradeInfo), init.length ≤ DEQUE_MAXLEN →
      burst.foldl (dequeAppend DEQUE_MAXLEN) init = takeLast DEQUE_MAXLEN (init ++ burst)) := by
  refine ⟨fun trades s0 h1 h2 => foldl_onMessageTrade_bounds _ _ trades s0 h1 h2,
    fun l x h => dequeAppend_of_full _ l x h (by norm_num [DEQUE_MAXLEN]),
    fun init burst h => foldl_dequeAppend_eq _ burst init h⟩

/-- A raw record used to instantiate universally-quantified theorems. -/
def rawSample : RawTrade :=
  { side := "B", time := 0, px := 3, sz := 2, coin := "BTC", users := ["u1", "u2"] }

/-- Witness for C6 at concrete inputs: a full 1000-element deque evicts its
head, and one ingested trade keeps the empty-state stores within bounds. -/
theorem C6_recent_store_capacity_and_eviction_witness :
    ((List.replicate 1000 (mkSample 0 "B" 1)).length = DEQUE_MAXLEN ∧
      dequeAppend DEQUE_MAXLEN (List.replicate 1000 (mkSample 0 "B" 1)) (mkSample 1 "A" 2) =
        (List.replicate 1000 (mkSample 0 "B" 1)).tail ++ [mkSample 1 "A" 2]) ∧
    ([rawSample].foldl (onMessageTrade DEQUE_MAXLEN QUEUE_SIZE)
        ⟨[], [], []⟩).trade_data.length ≤ DEQUE_MAXLEN := by
  refine ⟨⟨by rw [List.length_replicate]; rfl, ?_⟩, ?_⟩
  · exact C6_recent_store_capacity_and_eviction.2.1 _ _ (by rw [List.length_replicate]; rfl)
  · exact (C6_recent_store_capacity_and_eviction.1 [rawSample] ⟨[], [], []⟩
      (by norm_num [DEQUE_MAXLEN]) (by simp)).1

/-- The spec's burst scenario for the bounded stats queue: 5 valid trades
for the same instrument arriving with no consumer progress. -/
def scenarioTrades : List RawTrade :=
  [{ side := "B", time := 0, px := 1, sz := 1, coin := "BTC", users := ["u"] },
   { side := "B", time := 1, px := 1, sz := 1, coin := "BTC", users := ["u"] },
   { side := "B", time := 2, px := 1, sz := 1, coin := "BTC", users := ["u"] },
   { side := "B", time := 3, px := 1, sz := 1, coin := "BTC", users := ["u"] },
   { side := "B", time := 4, px := 1, sz := 1, coin := "BTC", users := ["u"] }]

/-- C3: While the stats queue is full, a valid trade is still appended to
the global store and the per-instrument store, and only the ledger push
is dropped (the queue is unchanged); in the concrete burst scenario with
queue capacity 2 and 5 trades, at most 2 trades reach the ledger queue
while all 5 appear in the recent-trade store. -/
theorem C3_full_queue_drops_ledger_update_only :
    (∀ (qCap : Nat) (s : IngestState) (t : RawTrade),
      qCap ≤ s.cumulative_stats_queue.length →
      (onMessageTrade DEQUE_MAXLEN qCap s t).cumulative_stats_queue =
          s.cumulative_stats_queue ∧
        mkTradeInfo t ∈ (onMessageTrade DEQUE_MAXLEN qCap s t).trade_data ∧
        mkTradeInfo t ∈
          (alistGet (onMessageTrade DEQUE_MAXLEN qCap s t).trade_data_by_coin t.coin).getD []) ∧
    ((scenarioTrades.foldl (onMessageTrade DEQUE_MAXLEN 2)
        ⟨[], [], []⟩).cumulative_stats_queue.length ≤ 2 ∧
      (scenarioTrades.foldl (onMessageTrade DEQUE_MAXLEN 2) ⟨[], [], []⟩).trade_data.length = 5 ∧
      (alistGet (scenarioTrades.foldl (onMessageTrade DEQUE_MAXLEN 2)
          ⟨[], [], []⟩).trade_data_by_coin "BTC").getD [] =
        (scenarioTrades.foldl (onMessageTrade DEQUE_MAXLEN 2) ⟨[], [], []⟩).trade_data) := by
  constructor
  · intro qCap s t hfull
    refine ⟨?_, ?_, ?_⟩
    · simp only [onMessageTrade, queuePutNowait]
      rw [if_neg (by omega)]
    · exact mem_dequeAppend_self _ _ _ (by norm_num [DEQUE_MAXLEN])
    · simp only [onMessageTrade, byCoinAppend]
      rw [alistGet_alistSet_same]
      exact mem_dequeAppend_self _ _ _ (by norm_num [DEQUE_MAXLEN])
  · refine ⟨by decide, by decide, rfl⟩

/-- Witness for C3's universally-quantified part: a concrete state whose
stats queue (capacity 2) is full. -/
theorem C3_full_queue_drops_ledger_update_only_witness :
    2 ≤ ([mkSample 0 "B" 1, mkSample 1 "B" 1] : List TradeInfo).length ∧
      (onMessageTrade DEQUE_MAXLEN 2
          ⟨[], [], [mkSample 0 "B" 1, mkSample 1 "B" 1]⟩ rawSample).cumulative_stats_queue =
        [mkSample 0 "B" 1, mkSample 1 "B" 1] := by
  refine ⟨by decide, ?_⟩
  exact (C3_full_queue_drops_ledger_update_only.1 2
    ⟨[], [], [mkSample 0 "B" 1, mkSample 1 "B" 1]⟩ rawSample (by decide)).1

/-- C9: For every valid raw record, the constructed trade event attributes
users by side — on `"B"` the first user is the buyer, on `"A"` the first
user is the seller, with a missing second entry (or empty user list)
yielding the sentinel `"unknown"` — and its notional (`total`) is
recomputed as price × quantity from the record's `px` and `sz` fields. -/
theorem C9_trade_event_construction (t : RawTrade) :
    (mkTradeInfo t).total = t.px * t.sz ∧
      (mkTradeInfo t).price = t.px ∧ (mkTradeInfo t).volume = t.sz ∧
      (t.side = "B" →
        (mkTradeInfo t).buyer = t.users.headD "unknown" ∧
          (mkTradeInfo t).seller = (t.users.drop 1).headD "unknown") ∧
      (t.side = "A" →
        (mkTradeInfo t).seller = t.users.headD "unknown" ∧
          (mkTradeInfo t).buyer = (t.users.drop 1).headD "unknown") ∧
      (t.users = [] →
        (mkTradeInfo t).buyer = "unknown" ∧ (mkTradeInfo t).seller = "unknown") := by
  refine ⟨mul_comm t.sz t.px, rfl, rfl, ?_, ?_, ?_⟩
  · intro hb
    cases hu : t.users with
    | nil => simp [mkTradeInfo, attributeUsers, hu]
    | cons u0 rest => simp [mkTradeInfo, attributeUsers, hu, hb]
  · intro ha
    have hb : t.side ≠ "B" := by rw [ha]; decide
    cases hu : t.users with
    | nil => simp [mkTradeInfo, attributeUsers, hu]
    | cons u0 rest => simp [mkTradeInfo, attributeUsers, hu, hb]
  · intro hu
    simp [mkTradeInfo, attributeUsers, hu]

/-- Witness for C9 at a concrete BUY record with a single listed user. -/
theorem C9_trade_event_construction_witness :
    (mkTradeInfo rawSample).total = 3 * 2 ∧
      (mkTradeInfo rawSample).buyer = "u1" ∧ (mkTradeInfo rawSample).seller = "u2" := by
  have h := C9_trade_event_construction rawSample
  exact ⟨h.1, (h.2.2.2.1 rfl).1, (h.2.2.2.1 rfl).2⟩

/-! ### The insufficient-data outcome of the windowed aggregator -/

theorem process_trade_data_none_iff (now ti : Int) (hist newData : List TradeInfo)
    (h : newData ≠ []) :
    (process_trade_data now ti hist newData).1 = none ↔
      (windowSelect now ti (mergedHistory (clean_historical_data now hist) newData)).length <
        MIN_RECORDS_THRESHOLD := by
  simp only [process_trade_data]
  rw [if_neg (by simpa [List.isEmpty_iff] using h)]
  split
  · next hlt => simpa using hlt
  · next hge => simpa using hge

/-- C2, counterexample to the stated equivalence: when the recent-trade
snapshot returned by `get_trade_data` is empty, `process_trade_data`
returns the no-data outcome even though the retained history holds 10
records (at least the threshold 5) inside the trailing window. -/
theorem C2_counterexample_empty_snapshot :
    (process_trade_data 600000 30 sampleTrades []).1 = none ∧
      MIN_RECORDS_THRESHOLD ≤
        (windowSelect 600000 30 (clean_historical_data 600000 sampleTrades)).length := by
  exact ⟨rfl, by decide⟩

/-- C2 (amended): provided the recent-trade snapshot holds at least one
record, the query returns the insufficient-data outcome exactly when
fewer than `MIN_RECORDS_THRESHOLD = 5` records of the merged retained
history fall in the trailing window, and a numeric result otherwise. -/
theorem C2_insufficient_data_outcome (now ti : Int) (hist newData : List TradeInfo)
    (h : newData ≠ []) :
    ((process_trade_data now ti hist newData).1 = none ↔
      (windowSelect now ti (mergedHistory (clean_historical_data now hist) newData)).length <
        MIN_RECORDS_THRESHOLD) ∧
    (MIN_RECORDS_THRESHOLD ≤
        (windowSelect now ti (mergedHistory (clean_historical_data now hist) newData)).length →
      ∃ r, (process_trade_data now ti hist newData).1 = some r) := by
  refine ⟨process_trade_data_none_iff now ti hist newData h, fun hge => ?_⟩
  have hne : (process_trade_data now ti hist newData).1 ≠ none := by
    intro heq
    have := (process_trade_data_none_iff now ti hist newData h).mp heq
    omega
  exact Option.ne_none_iff_exists'.mp hne

/-- Witness for C2's amended theorem on the concrete 10-trade window. -/
theorem C2_insufficient_data_outcome_witness :
    sampleTrades ≠ [] ∧
      ((process_trade_data 600000 30 [] sampleTrades).1 = none ↔
        (windowSelect 600000 30
            (mergedHistory (clean_historical_data 600000 []) sampleTrades)).length <
          MIN_RECORDS_THRESHOLD) :=
  ⟨by decide, (C2_insufficient_data_outcome 600000 30 [] sampleTrades (by decide)).1⟩

/-- C10: When the requested instrument has no per-instrument store entry
(or no instrument is given), `get_trade_data` returns the global
cross-instrument store, so a windowed query for a never-seen instrument
is computed over other instruments' trades whenever the global data
suffices, instead of reporting no data. -/
theorem C10_global_store_fallback (byCoin : List (String × List TradeInfo))
    (globalData : List TradeInfo) :
    get_trade_data byCoin globalData none = globalData ∧
      (∀ c, alistHas byCoin c = false →
        get_trade_data byCoin globalData (some c) = globalData) ∧
      (∀ (c : String) (now ti : Int) (hist : List TradeInfo),
        alistHas byCoin c = false → globalData ≠ [] →
        MIN_RECORDS_THRESHOLD ≤
          (windowSelect now ti
            (mergedHistory (clean_historical_data now hist) globalData)).length →
        ∃ r, (process_trade_data now ti hist
          (get_trade_data byCoin globalData (some c))).1 = some r) := by
  have hfall : ∀ c, alistHas byCoin c = false →
      get_trade_data byCoin globalData (some c) = globalData := by
    intro c hc
    simp [get_trade_data, hc]
  refine ⟨rfl, hfall, ?_⟩
  intro c now ti hist hc hne hge
  rw [hfall c hc]
  have h := process_trade_data_none_iff now ti hist globalData hne
  have hnn : (process_trade_data now ti hist globalData).1 ≠ none := by
    intro heq
    have := h.mp heq
    omega
  exact Option.ne_none_iff_exists'.mp hnn

/-! ### Ledger update characterization -/

/-- `cumulative_user_stats[coin][user]` as a partial lookup. -/
def userGet (m : CumulativeStats) (coin user : String) : Option UserStat :=
  (alistGet m coin).bind (fun inner => alistGet inner user)

theorem alistGet_of_has (m : List (String × β)) (k : String) (h : alistHas m k = true) :
    ∃ v, alistGet m k = some v := by
  induction m with
  | nil => simp [alistHas] at h
  | cons q rest ih =>
    by_cases hq : q.1 = k
    · exact ⟨q.2, by simp [alistGet, hq]⟩
    · rw [show alistGet (q :: rest) k = alistGet rest k by simp [alistGet, hq]]
      apply ih
      simpa [alistHas, hq] using h

theorem stats1_get_coin (stats : CumulativeStats) (c : String) :
    alistGet (if alistHas stats c then stats else alistSet stats c []) c =
      some ((alistGet stats c).getD []) := by
  by_cases hh : alistHas stats c
  · rw [if_pos hh]
    obtain ⟨v, hv⟩ := alistGet_of_has stats c hh
    rw [hv]
    rfl
  · rw [if_neg hh, alistGet_alistSet_same,
      alistGet_of_not_has stats c (by simpa using hh)]
    rfl

theorem stats1_get_other (stats : CumulativeStats) (c c' : String) (h : c' ≠ c) :
    alistGet (if alistHas stats c then stats else alistSet stats c []) c' =
      alistGet stats c' := by
  by_cases hh : alistHas stats c
  · rw [if_pos hh]
  · rw [if_neg hh, alistGet_alistSet_other _ _ _ _ h]

theorem alistGet_getD_inner (stats : CumulativeStats) (c u : String) :
    alistGet ((alistGet stats c).getD []) u = userGet stats c u := by
  cases h : alistGet stats c <;> simp [userGet, h, alistGet]

theorem alistGet_ite_modify (cond : Prop) [Decidable cond] (m : CumulativeStats)
    (k c : String) (f : CoinStats → CoinStats) (h : c ≠ k) :
    alistGet (if cond then alistModify m k f else m) c = alistGet m c := by
  split
  · exact alistGet_alistModify_other _ _ _ _ h
  · rfl

theorem update_get_coin_B (stats : CumulativeStats) (t : TradeInfo)
    (hB : t.side = "B") (hb : t.buyer ≠ "") (hc : t.coin ≠ "") :
    alistGet (update_cumulative_stats stats t) t.coin =
      some (bumpBuy ((alistGet stats t.coin).getD []) t.buyer t.total) := by
  simp only [update_cumulative_stats]
  rw [if_neg (by push_neg; exact ⟨hc, by rw [hB]; decide, fun h1 _ => hb h1⟩)]
  rw [if_neg (by rintro ⟨hA, -⟩; rw [hB] at hA; exact absurd hA (by decide))]
  rw [if_pos ⟨hB, hb⟩, alistGet_alistModify_same, stats1_get_coin]
  rfl

theorem update_get_coin_A (stats : CumulativeStats) (t : TradeInfo)
    (hA : t.side = "A") (hs : t.seller ≠ "") (hc : t.coin ≠ "") :
    alistGet (update_cumulative_stats stats t) t.coin =
      some (bumpSell ((alistGet stats t.coin).getD []) t.seller t.total) := by
  simp only [update_cumulative_stats]
  rw [if_neg (by push_neg; exact ⟨hc, by rw [hA]; decide, fun _ h2 => hs h2⟩)]
  rw [if_pos ⟨hA, hs⟩]
  rw [if_neg (by rintro ⟨hB, -⟩; rw [hA] at hB; exact absurd hB (by decide))]
  rw [alistGet_alistModify_same, stats1_get_coin]
  rfl

theorem userGet_update_B (stats : CumulativeStats) (t : TradeInfo)
    (hB : t.side = "B") (hb : t.buyer ≠ "") (hc : t.coin ≠ "") :
    userGet (update_cumulative_stats stats t) t.coin t.buyer =
      some { (userGet stats t.coin t.buyer).getD emptyUserStat with
             buy_count := ((userGet stats t.coin t.buyer).getD emptyUserStat).buy_count + 1
             buy_volume :=
               ((userGet stats t.coin t.buyer).getD emptyUserStat).buy_volume + t.total } := by
  simp only [userGet, update_get_coin_B stats t hB hb hc, Option.some_bind]
  unfold bumpBuy
  rw [alistGet_alistSet_same, alistGet_getD_inner]
  rfl

theorem userGet_update_A (stats : CumulativeStats) (t : TradeInfo)
    (hA : t.side = "A") (hs : t.seller ≠ "") (hc : t.coin ≠ "") :
    userGet (update_cumulative_stats stats t) t.coin t.seller =
      some { (userGet stats t.coin t.seller).getD emptyUserStat with
             sell_count := ((userGet stats t.coin t.seller).getD emptyUserStat).sell_count + 1
             sell_volume :=
               ((userGet stats t.coin t.seller).getD emptyUserStat).sell_volume + t.total } := by
  simp only [userGet, update_get_coin_A stats t hA hs hc, Option.some_bind]
  unfold bumpSell
  rw [alistGet_alistSet_same, alistGet_getD_inner]
  rfl

theorem userGet_update_frame (stats : CumulativeStats) (t : TradeInfo) (c u : String)
    (hnot : ¬(c = t.coin ∧
      ((t.side = "B" ∧ u = t.buyer ∧ t.buyer ≠ "") ∨
        (t.side = "A" ∧ u = t.seller ∧ t.seller ≠ "")))) :
    userGet (update_cumulative_stats stats t) c u = userGet stats c u := by
  simp only [update_cumulative_stats]
  split
  · rfl
  · by_cases hcc : c = t.coin
    · subst hcc
      by_cases hA : t.side = "A" ∧ t.seller ≠ ""
      · have hBf : ¬(t.side = "B" ∧ t.buyer ≠ "") := by
          rintro ⟨hB, -⟩
          rw [hB] at hA
          exact absurd hA.1 (by decide)
        have hu : u ≠ t.seller := fun he => hnot ⟨rfl, Or.inr ⟨hA.1, he, hA.2⟩⟩
        simp only [userGet]
        rw [if_pos hA, if_neg hBf, alistGet_alistModify_same, stats1_get_coin,
          Option.map_some', Option.some_bind]
        simp only [bumpSell]
        rw [alistGet_alistSet_other _ _ _ _ hu]
        exact alistGet_getD_inner stats t.coin u
      · rw [if_neg hA]
        by_cases hB : t.side = "B" ∧ t.buyer ≠ ""
        · have hu : u ≠ t.buyer := fun he => hnot ⟨rfl, Or.inl ⟨hB.1, he, hB.2⟩⟩
          simp only [userGet]
          rw [if_pos hB, alistGet_alistModify_same, stats1_get_coin,
            Option.map_some', Option.some_bind]
          simp only [bumpBuy]
          rw [alistGet_alistSet_other _ _ _ _ hu]
          exact alistGet_getD_inner stats t.coin u
        · simp only [userGet]
          rw [if_neg hB, stats1_get_coin, Option.some_bind]
          exact alistGet_getD_inner stats t.coin u
    · simp only [userGet]
      rw [alistGet_ite_modify _ _ _ _ _ hcc, alistGet_ite_modify _ _ _ _ _ hcc,
        stats1_get_other _ _ _ hcc]

/-- A dequeued trade whose buy side carries the `"unknown"` sentinel. -/
def tradeUnknownBuyer : TradeInfo :=
  { timestamp := 0, side := "B", price := 1, volume := 7, total := 7,
    coin := "BTC", buyer := "unknown", seller := "s" }

/-- C4, counterexample: a BUY event whose buyer is the `"unknown"` sentinel
still increments a ledger entry — the string `"unknown"` is truthy in
Python, so the code counts it as a user, where the claim says a known
(non-sentinel) buyer is required for any increment. -/
theorem C4_counterexample_unknown_buyer_counted :
    update_cumulative_stats [] tradeUnknownBuyer ≠ [] ∧
      userGet (update_cumulative_stats [] tradeUnknownBuyer) "BTC" "unknown" =
        some { buy_count := 1, sell_count := 0, buy_volume := 7, sell_volume := 0 } := by
  constructor
  · simp [update_cumulative_stats, tradeUnknownBuyer, alistHas, alistSet, alistModify]
  · have h := userGet_update_B [] tradeUnknownBuyer rfl (by decide) (by decide)
    rw [show tradeUnknownBuyer.coin = "BTC" from rfl,
      show tradeUnknownBuyer.buyer = "unknown" from rfl] at h
    rw [h]
    norm_num [userGet, alistGet, emptyUserStat, tradeUnknownBuyer]

/-- C4 (amended): the dequeued-trade ledger update increments at most one
user's counters — on side `'B'` with a non-empty buyer string (including
the `"unknown"` sentinel, which Python truthiness lets through) that
buyer's `buy_count` gains 1 and `buy_volume` gains the trade's notional;
on side `'A'` with a non-empty seller string the seller's sell counters
likewise; every other (coin, user) entry is unchanged, and — for a
non-negative notional — no counter ever decreases. -/
theorem C4_ledger_update_increments (stats : CumulativeStats) (t : TradeInfo)
    (htot : 0 ≤ t.total) :
    (t.side = "B" → t.buyer ≠ "" → t.coin ≠ "" →
      userGet (update_cumulative_stats stats t) t.coin t.buyer =
        some { (userGet stats t.coin t.buyer).getD emptyUserStat with
               buy_count := ((userGet stats t.coin t.buyer).getD emptyUserStat).buy_count + 1
               buy_volume :=
                 ((userGet stats t.coin t.buyer).getD emptyUserStat).buy_volume + t.total }) ∧
    (t.side = "A" → t.seller ≠ "" → t.coin ≠ "" →
      userGet (update_cumulative_stats stats t) t.coin t.seller =
        some { (userGet stats t.coin t.seller).getD emptyUserStat with
               sell_count := ((userGet stats t.coin t.seller).getD emptyUserStat).sell_count + 1
               sell_volume :=
                 ((userGet stats t.coin t.seller).getD emptyUserStat).sell_volume + t.total }) ∧
    (∀ c u, ¬(c = t.coin ∧
        ((t.side = "B" ∧ u = t.buyer ∧ t.buyer ≠ "") ∨
          (t.side = "A" ∧ u = t.seller ∧ t.seller ≠ ""))) →
      userGet (update_cumulative_stats stats t) c u = userGet stats c u) ∧
    (∀ c u s0 s1, userGet stats c u = some s0 →
      userGet (update_cumulative_stats stats t) c u = some s1 →
      s0.buy_count ≤ s1.buy_count ∧ s0.sell_count ≤ s1.sell_count ∧
        s0.buy_volume ≤ s1.buy_volume ∧ s0.sell_volume ≤ s1.sell_volume) := by
  refine ⟨fun hB hb hc => userGet_update_B stats t hB hb hc,
    fun hA hs hc => userGet_update_A stats t hA hs hc,
    fun c u hnot => userGet_update_frame stats t c u hnot, ?_⟩
  have hguard : ∀ (h : t.coin = "" ∨ t.side = "" ∨ (t.buyer = "" ∧ t.seller = "")),
      update_cumulative_stats stats t = stats := by
    intro h
    simp only [update_cumulative_stats]
    rw [if_pos h]
  intro c u s0 s1 h0 h1
  by_cases hcase : c = t.coin ∧
      ((t.side = "B" ∧ u = t.buyer ∧ t.buyer ≠ "") ∨
        (t.side = "A" ∧ u = t.seller ∧ t.seller ≠ ""))
  · obtain ⟨hcc, hside⟩ := hcase
    subst hcc
    by_cases hcoin : t.coin = ""
    · rw [hguard (Or.inl hcoin), h0] at h1
      injection h1 with h1
      subst h1
      exact ⟨le_refl _, le_refl _, le_refl _, le_refl _⟩
    · rcases hside with ⟨hB, hu, hb⟩ | ⟨hA, hu, hs⟩
      · subst hu
        rw [userGet_update_B stats t hB hb hcoin, h0] at h1
        simp only [Option.getD_some, Option.some.injEq] at h1
        subst h1
        exact ⟨Nat.le_succ _, le_refl _, le_add_of_nonneg_right htot, le_refl _⟩
      · subst hu
        rw [userGet_update_A stats t hA hs hcoin, h0] at h1
        simp only [Option.getD_some, Option.some.injEq] at h1
        subst h1
        exact ⟨le_refl _, Nat.le_succ _, le_refl _, le_add_of_nonneg_right htot⟩
  · rw [userGet_update_frame stats t c u hcase, h0] at h1
    injection h1 with h1
    subst h1
    exact ⟨le_refl _, le_refl _, le_refl _, le_refl _⟩

/-- Witness for C4's amended theorem: a concrete BUY bump and a frame
lookup on an untouched user. -/
theorem C4_ledger_update_increments_witness :
    (0 : ℚ) ≤ tradeUnknownBuyer.total ∧
      userGet (update_cumulative_stats [] tradeUnknownBuyer) tradeUnknownBuyer.coin
          tradeUnknownBuyer.buyer =
        some { (userGet ([] : CumulativeStats) tradeUnknownBuyer.coin
                tradeUnknownBuyer.buyer).getD emptyUserStat with
               buy_count := ((userGet ([] : CumulativeStats) tradeUnknownBuyer.coin
                 tradeUnknownBuyer.buyer).getD emptyUserStat).buy_count + 1
               buy_volume := ((userGet ([] : CumulativeStats) tradeUnknownBuyer.coin
                 tradeUnknownBuyer.buyer).getD emptyUserStat).buy_volume +
                 tradeUnknownBuyer.total } ∧
      userGet (update_cumulative_stats [] tradeUnknownBuyer) "ETH" "other" =
        userGet ([] : CumulativeStats) "ETH" "other" := by
  have h := C4_ledger_update_increments ([] : CumulativeStats) tradeUnknownBuyer (by decide)
  exact ⟨by decide, h.1 rfl (by decide) (by decide),
    h.2.2.1 "ETH" "other" (by rintro ⟨he, -⟩; exact absurd he (by decide))⟩

/-! ### Sentiment formula and range -/

theorem buyVolume_nonneg (l : List TradeInfo) (h : ∀ t ∈ l, 0 ≤ t.total) :
    0 ≤ buyVolume l := by
  apply List.sum_nonneg
  intro x hx
  obtain ⟨t, ht, rfl⟩ := List.mem_map.mp hx
  exact h t (List.mem_filter.mp ht).1

theorem sellVolume_nonneg (l : List TradeInfo) (h : ∀ t ∈ l, 0 ≤ t.total) :
    0 ≤ sellVolume l := by
  apply List.sum_nonneg
  intro x hx
  obtain ⟨t, ht, rfl⟩ := List.mem_map.mp hx
  exact h t (List.mem_filter.mp ht).1

theorem volumeSentiment_eq_of_nonneg (l : List TradeInfo) (h : ∀ t ∈ l, 0 ≤ t.total) :
    volumeSentiment l =
      if buyVolume l + sellVolume l = 0 then 50
      else buyVolume l / (buyVolume l + sellVolume l) * 100 := by
  have hnn : 0 ≤ buyVolume l + sellVolume l :=
    add_nonneg (buyVolume_nonneg l h) (sellVolume_nonneg l h)
  unfold volumeSentiment
  by_cases h0 : buyVolume l + sellVolume l = 0
  · rw [if_pos h0, if_neg (by rw [h0]; exact lt_irrefl 0)]
  · rw [if_neg h0, if_pos (lt_of_le_of_ne hnn (Ne.symm h0))]

theorem volumeSentiment_bounds (l : List TradeInfo) (h : ∀ t ∈ l, 0 ≤ t.total) :
    0 ≤ volumeSentiment l ∧ volumeSentiment l ≤ 100 := by
  have hb : 0 ≤ buyVolume l := buyVolume_nonneg l h
  have hs : 0 ≤ sellVolume l := sellVolume_nonneg l h
  unfold volumeSentiment
  split
  · next hpos =>
    constructor
    · exact mul_nonneg (div_nonneg hb (le_of_lt hpos)) (by norm_num)
    · have hle : buyVolume l ≤ buyVolume l + sellVolume l := le_add_of_nonneg_right hs
      have hdiv : buyVolume l / (buyVolume l + sellVolume l) ≤ 1 := (div_le_one hpos).mpr hle
      calc buyVolume l / (buyVolume l + sellVolume l) * 100 ≤ 1 * 100 :=
            mul_le_mul_of_nonneg_right hdiv (by norm_num)
        _ = 100 := by norm_num
  · exact ⟨by norm_num, by norm_num⟩

theorem countSentiment_eq (l : List TradeInfo) :
    countSentiment l =
      if (buyCount l : ℚ) + (sellCount l : ℚ) = 0 then 50
      else (buyCount l : ℚ) / ((buyCount l : ℚ) + (sellCount l : ℚ)) * 100 := by
  unfold countSentiment
  by_cases h0 : buyCount l + sellCount l = 0
  · rw [if_neg (by omega), if_pos (by exact_mod_cast congrArg (Nat.cast : ℕ → ℚ) h0)]
  · rw [if_pos (by omega), if_neg (by exact_mod_cast h0)]

theorem countSentiment_bounds (l : List TradeInfo) :
    0 ≤ countSentiment l ∧ countSentiment l ≤ 100 := by
  unfold countSentiment
  split
  · next hpos =>
    have hposq : (0 : ℚ) < (buyCount l : ℚ) + (sellCount l : ℚ) := by exact_mod_cast hpos
    constructor
    · exact mul_nonneg (div_nonneg (by positivity) (le_of_lt hposq)) (by norm_num)
    · have hle : (buyCount l : ℚ) ≤ (buyCount l : ℚ) + (sellCount l : ℚ) :=
        le_add_of_nonneg_right (by positivity)
      have hdiv : (buyCount l : ℚ) / ((buyCount l : ℚ) + (sellCount l : ℚ)) ≤ 1 :=
        (div_le_one hposq).mpr hle
      calc (buyCount l : ℚ) / ((buyCount l : ℚ) + (sellCount l : ℚ)) * 100 ≤ 1 * 100 :=
            mul_le_mul_of_nonneg_right hdiv (by norm_num)
        _ = 100 := by norm_num
  · exact ⟨by norm_num, by norm_num⟩

theorem process_trade_data_some (now ti : Int) (hist newData : List TradeInfo)
    (h : newData ≠ [])
    (hwin : MIN_RECORDS_THRESHOLD ≤
      (windowSelect now ti (mergedHistory (clean_historical_data now hist) newData)).length) :
    (process_trade_data now ti hist newData).1 =
      some { records := windowSelect now ti (mergedHistory (clean_historical_data now hist) newData)
             volumeByTime := volume_by_time
               (windowSelect now ti (mergedHistory (clean_historical_data now hist) newData))
             sentiment := volumeSentiment
               (windowSelect now ti (mergedHistory (clean_historical_data now hist) newData))
             count_sentiment := countSentiment
               (windowSelect now ti (mergedHistory (clean_historical_data now hist) newData)) } := by
  simp only [process_trade_data]
  rw [if_neg (by simpa [List.isEmpty_iff] using h), if_neg (by omega)]

/-- C1: On a window selection holding at least the minimum number of
records, `process_trade_data` returns a numeric result whose records are
the window, whose volume sentiment is `buy_volume/(buy_volume +
sell_volume)·100` (the sums of `total` over sides `'B'` and `'A'`) with
the value 50 exactly when total volume is 0, whose count sentiment is
computed the same way over trade counts, and — given non-negative
notionals — both sentiments lie in [0, 100]. -/
theorem C1_sentiment_formula_and_range (now ti : Int) (hist newData : List TradeInfo)
    (h : newData ≠ [])
    (hwin : MIN_RECORDS_THRESHOLD ≤
      (windowSelect now ti (mergedHistory (clean_historical_data now hist) newData)).length)
    (hnn : ∀ t ∈ windowSelect now ti (mergedHistory (clean_historical_data now hist) newData),
      0 ≤ t.total) :
    ∃ r, (process_trade_data now ti hist newData).1 = some r ∧
      r.records = windowSelect now ti (mergedHistory (clean_historical_data now hist) newData) ∧
      r.sentiment =
        (if buyVolume r.records + sellVolume r.records = 0 then 50
         else buyVolume r.records / (buyVolume r.records + sellVolume r.records) * 100) ∧
      r.count_sentiment =
        (if (buyCount r.records : ℚ) + (sellCount r.records : ℚ) = 0 then 50
         else (buyCount r.records : ℚ) /
           ((buyCount r.records : ℚ) + (sellCount r.records : ℚ)) * 100) ∧
      0 ≤ r.sentiment ∧ r.sentiment ≤ 100 ∧ 0 ≤ r.count_sentiment ∧ r.count_sentiment ≤ 100 := by
  refine ⟨_, process_trade_data_some now ti hist newData h hwin, rfl, ?_, ?_, ?_, ?_, ?_, ?_⟩
  · exact volumeSentiment_eq_of_nonneg _ hnn
  · exact countSentiment_eq _
  · exact (volumeSentiment_bounds _ hnn).1
  · exact (volumeSentiment_bounds _ hnn).2
  · exact (countSentiment_bounds _).1
  · exact (countSentiment_bounds _).2

/-- Witness for C1 on the spec's concrete window (6 BUY of notional 100,
4 SELL of notional 50). -/
theorem C1_sentiment_formula_and_range_witness :
    sampleTrades ≠ [] ∧
      MIN_RECORDS_THRESHOLD ≤
        (windowSelect 600000 30
          (mergedHistory (clean_historical_data 600000 []) sampleTrades)).length ∧
      ∃ r, (process_trade_data 600000 30 [] sampleTrades).1 = some r ∧
        r.records = windowSelect 600000 30
          (mergedHistory (clean_historical_data 600000 []) sampleTrades) ∧
        r.sentiment =
          (if buyVolume r.records + sellVolume r.records = 0 then 50
           else buyVolume r.records / (buyVolume r.records + sellVolume r.records) * 100) ∧
        r.count_sentiment =
          (if (buyCount r.records : ℚ) + (sellCount r.records : ℚ) = 0 then 50
           else (buyCount r.records : ℚ) /
             ((buyCount r.records : ℚ) + (sellCount r.records : ℚ)) * 100) ∧
        0 ≤ r.sentiment ∧ r.sentiment ≤ 100 ∧ 0 ≤ r.count_sentiment ∧ r.count_sentiment ≤ 100 :=
  ⟨by decide, by decide,
    C1_sentiment_formula_and_range 600000 30 [] sampleTrades (by decide) (by decide) (by decide)⟩

/-! ### Connection manager: reconnect counter -/

/-- C5: the concrete behavior of the monitor-loop model around the
reconnect counter. A reconnect launched at attempt count 3 that
immediately succeeds leaves the counter at 4 — `start_websocket` clears
the error fields but never touches `reconnect_count`, so a successful
reconnect does not reset it to 0 as the spec requires; the only reset
path is the post-maximum cooldown branch, which (as the claim also
states) launches no attempt at count 5 and resets the counter to 0. -/
theorem C5_reconnect_counter_behavior :
    ((check_connection_step ⟨false, 0, none, none, 3⟩ 100 true true "").1).reconnect_count = 4 ∧
      (start_websocket_status ⟨false, 0, none, none, 3⟩ 100 true "").reconnect_count = 3 ∧
      (check_connection_step ⟨false, 0, none, none, 5⟩ 100 true true "").2 = false ∧
      ((check_connection_step ⟨false, 0, none, none, 5⟩ 100 true true "").1).reconnect_count = 0 :=
  ⟨rfl, rfl, rfl, rfl⟩

/-! ### Persistence round-trip -/

theorem save_cumulative_stats_eq (m : CumulativeStats) : save_cumulative_stats m = m := by
  simp [save_cumulative_stats]

theorem alistHas_append (a b : List (String × β)) (k : String) :
    alistHas (a ++ b) k = (alistHas a k || alistHas b k) := by
  simp [alistHas, List.any_append]

theorem alistHas_eq_false_iff (m : List (String × β)) (k : String) :
    alistHas m k = false ↔ ∀ p ∈ m, p.1 ≠ k := by
  simp [alistHas, List.any_eq_false]

theorem loadUsers_append (users acc : CoinStats)
    (hdisj : ∀ p ∈ users, alistHas acc p.1 = false)
    (hnodup : (users.map Prod.fst).Nodup) :
    loadUsers acc users = acc ++ users := by
  induction users generalizing acc with
  | nil => simp [loadUsers]
  | cons p rest ih =>
    simp only [loadUsers, List.foldl_cons]
    rw [alistSet_of_not_has _ _ _ (hdisj p (List.mem_cons_self _ _))]
    have hstep : loadUsers (acc ++ [(p.1, p.2)]) rest = (acc ++ [(p.1, p.2)]) ++ rest := by
      apply ih
      · intro q hq
        rw [alistHas_append, Bool.or_eq_false_iff]
        refine ⟨hdisj q (List.mem_cons_of_mem _ hq), ?_⟩
        rw [alistHas_eq_false_iff]
        intro r hr
        rw [List.mem_singleton.mp hr]
        simp only [List.map_cons, List.nodup_cons] at hnodup
        exact fun he => hnodup.1 (he ▸ List.mem_map_of_mem Prod.fst hq)
      · simpa using hnodup.of_cons
    rw [show (rest.foldl (fun a q => alistSet a q.1 q.2) (acc ++ [(p.1, p.2)])) =
        loadUsers (acc ++ [(p.1, p.2)]) rest from rfl, hstep, List.append_assoc]
    rfl

theorem alistModify_append_singleton (cur : List (String × β)) (k : String) (v : β)
    (f : β → β) (h : alistHas cur k = false) :
    alistModify (cur ++ [(k, v)]) k f = cur ++ [(k, f v)] := by
  unfold alistModify
  rw [List.map_append]
  have h1 : cur.map (fun p => if p.1 = k then (p.1, f p.2) else p) = cur := by
    rw [show cur = cur.map id from (List.map_id cur).symm]
    simp only [List.map_map]
    apply List.map_congr_left
    intro p hp
    simp [((alistHas_eq_false_iff cur k).mp h) p (by simpa using hp)]
  rw [h1]
  simp

theorem load_cumulative_stats_append (file cur : CumulativeStats)
    (hdisj : ∀ cu ∈ file, alistHas cur cu.1 = false)
    (hnodup : (file.map Prod.fst).Nodup)
    (hinner : ∀ cu ∈ file, (cu.2.map Prod.fst).Nodup) :
    load_cumulative_stats cur file = cur ++ file := by
  induction file generalizing cur with
  | nil => simp [load_cumulative_stats]
  | cons cu rest ih =>
    simp only [load_cumulative_stats, List.foldl_cons]
    rw [if_neg (by rw [hdisj cu (List.mem_cons_self _ _)]; exact Bool.false_ne_true),
      alistSet_of_not_has _ _ _ (hdisj cu (List.mem_cons_self _ _)),
      alistModify_append_singleton _ _ _ _ (hdisj cu (List.mem_cons_self _ _)),
      loadUsers_append cu.2 [] (fun p _ => rfl) (hinner cu (List.mem_cons_self _ _))]
    have hstep : rest.foldl
        (fun acc c2 =>
          alistModify (if alistHas acc c2.1 then acc else alistSet acc c2.1 [])
            c2.1 (fun inner => loadUsers inner c2.2))
        (cur ++ [(cu.1, [] ++ cu.2)]) = (cur ++ [(cu.1, [] ++ cu.2)]) ++ rest := by
      apply ih
      · intro q hq
        rw [alistHas_append, Bool.or_eq_false_iff]
        refine ⟨hdisj q (List.mem_cons_of_mem _ hq), ?_⟩
        rw [alistHas_eq_false_iff]
        intro r hr
        rw [List.mem_singleton.mp hr]
        simp only [List.map_cons, List.nodup_cons] at hnodup
        exact fun he => hnodup.1 (he ▸ List.mem_map_of_mem Prod.fst hq)
      · simpa using hnodup.of_cons
      · exact fun q hq => hinner q (List.mem_cons_of_mem _ hq)
    rw [hstep, List.append_assoc]
    simp

/-- C7: saving the cumulative-stats ledger and loading the result into an
empty in-memory ledger reproduces the per-instrument per-user map
exactly. The JSON layer (`json.dump`/`json.load`) preserves nested
object structure and key order, round-trips `int` exactly and `float`
through `repr`'s shortest round-trip form, so numeric values come back
bit-for-bit; the model therefore treats the file as the same nested map,
and the equality below is exact. -/
theorem C7_persistence_roundtrip (m : CumulativeStats)
    (hnodup : (m.map Prod.fst).Nodup)
    (hinner : ∀ cu ∈ m, (cu.2.map Prod.fst).Nodup) :
    load_cumulative_stats [] (save_cumulative_stats m) = m := by
  rw [save_cumulative_stats_eq]
  simpa using load_cumulative_stats_append m [] (fun cu _ => rfl) hnodup hinner

/-- A sample two-coin ledger. -/
def sampleStats : CumulativeStats :=
  [("BTC", [("u1", ⟨1, 0, 5, 0⟩), ("u2", ⟨0, 1, 0, 50⟩)]),
   ("ETH", [("u3", ⟨2, 2, 10, 10⟩)])]

/-- Witness for C7 on the sample ledger. -/
theorem C7_persistence_roundtrip_witness :
    ((sampleStats.map Prod.fst).Nodup ∧
        ∀ cu ∈ sampleStats, (cu.2.map Prod.fst).Nodup) ∧
      load_cumulative_stats [] (save_cumulative_stats sampleStats) = sampleStats :=
  ⟨⟨by decide, by decide⟩, C7_persistence_roundtrip sampleStats (by decide) (by decide)⟩

/-! ### Ledger eviction -/

theorem clean_coin_retained_perm (maxUsers : Nat) (users : CoinStats)
    (hlen : maxUsers < users.length) (hnodup : (users.map Prod.fst).Nodup) :
    (clean_coin_stats maxUsers users).Perm
      ((List.insertionSort rankDesc users).take maxUsers) := by
  simp only [clean_coin_stats]
  rw [if_pos hlen]
  have hperm : users.Perm (List.insertionSort rankDesc users) :=
    (List.perm_insertionSort rankDesc users).symm
  have hsortnodup : ((List.insertionSort rankDesc users).map Prod.fst).Nodup :=
    (hperm.map Prod.fst).nodup hnodup
  refine (hperm.filter _).trans ?_
  set T := (List.insertionSort rankDesc users).take maxUsers with hT
  set D := (List.insertionSort rankDesc users).drop maxUsers with hD
  have hTD : List.insertionSort rankDesc users = T ++ D :=
    (List.take_append_drop maxUsers (List.insertionSort rankDesc users)).symm
  rw [hTD] at hsortnodup ⊢
  rw [List.map_append, List.nodup_append] at hsortnodup
  rw [List.filter_append]
  have h1 : T.filter (fun u => decide (u.1 ∈ T.map Prod.fst)) = T :=
    List.filter_eq_self.mpr (fun a ha => by
      simp only [decide_eq_true_eq]
      exact List.mem_map_of_mem Prod.fst ha)
  have h2 : D.filter (fun u => decide (u.1 ∈ T.map Prod.fst)) = [] :=
    List.filter_eq_nil_iff.mpr (fun a ha => by
      simp only [decide_eq_true_eq]
      intro hmem
      exact hsortnodup.2.2 hmem (List.mem_map_of_mem Prod.fst ha))
  rw [h1, h2, List.append_nil]

/-- C8: per-instrument eviction leaves instruments at or below the cap
unchanged; above the cap (with distinct user keys) it retains exactly
`max_users_per_coin` users drawn from the pre-eviction set, each ranking
at least as high as every evicted user under the descending
`(total_volume, total_count)` order; and the maintenance pass triggers an
immediate persistence snapshot exactly when some user was evicted. -/
theorem C8_ledger_eviction_topN :
    (∀ (maxUsers : Nat) (users : CoinStats), users.length ≤ maxUsers →
      clean_coin_stats maxUsers users = users) ∧
    (∀ (maxUsers : Nat) (users : CoinStats), maxUsers < users.length →
      (users.map Prod.fst).Nodup →
      (clean_coin_stats maxUsers users).length = maxUsers ∧
        (∀ u ∈ clean_coin_stats maxUsers users, u ∈ users) ∧
        (∀ u ∈ clean_coin_stats maxUsers users, ∀ v ∈ users,
          v ∉ clean_coin_stats maxUsers users → rankDesc u v)) ∧
    (∀ (maxUsers : Nat) (m : CumulativeStats),
      ((clean_cumulative_stats maxUsers m).2 = true ↔
        ∃ cu ∈ m, (clean_coin_stats maxUsers cu.2).length < cu.2.length) ∧
      (clean_cumulative_stats maxUsers m).1 =
        m.map (fun cu => (cu.1, clean_coin_stats maxUsers cu.2))) := by
  refine ⟨?_, ?_, ?_⟩
  · intro maxUsers users hle
    simp only [clean_coin_stats]
    rw [if_neg (by omega)]
  · intro maxUsers users hlen hnodup
    have hperm := clean_coin_retained_perm maxUsers users hlen hnodup
    have hsortperm := List.perm_insertionSort rankDesc users
    refine ⟨?_, ?_, ?_⟩
    · rw [hperm.length_eq, List.length_take, List.length_insertionSort]
      omega
    · intro u hu
      simp only [clean_coin_stats] at hu
      rw [if_pos hlen] at hu
      exact (List.mem_filter.mp hu).1
    · intro u hu v hv hvnot
      have hu' : u ∈ (List.insertionSort rankDesc users).take maxUsers :=
        hperm.mem_iff.mp hu
      have hv' : v ∈ (List.insertionSort rankDesc users).drop maxUsers := by
        have hvs : v ∈ (List.insertionSort rankDesc users).take maxUsers ++
            (List.insertionSort rankDesc users).drop maxUsers := by
          rw [List.take_append_drop]
          exact hsortperm.mem_iff.mpr hv
        rcases List.mem_append.mp hvs with h | h
        · exact absurd (hperm.mem_iff.mpr h) hvnot
        · exact h
      exact (List.sorted_insertionSort rankDesc users).rel_of_mem_take_of_mem_drop hu' hv'
  · intro maxUsers m
    constructor
    · rw [show (clean_cumulative_stats maxUsers m).2 =
          decide (0 < cleanedCount maxUsers m) from rfl, decide_eq_true_eq]
      unfold cleanedCount
      rw [Nat.pos_iff_ne_zero, Ne, List.sum_eq_zero_iff]
      push_neg
      constructor
      · rintro ⟨x, hx, hxne⟩
        obtain ⟨cu, hcu, rfl⟩ := List.mem_map.mp hx
        exact ⟨cu, hcu, by omega⟩
      · rintro ⟨cu, hcu, hlt⟩
        exact ⟨_, List.mem_map_of_mem _ hcu, by omega⟩
    · rfl

/-- A sample four-user coin ledger with distinct keys. -/
def sampleUsers : CoinStats :=
  [("u1", ⟨1, 0, 5, 0⟩), ("u2", ⟨0, 1, 0, 50⟩), ("u3", ⟨2, 2, 10, 10⟩), ("u4", ⟨0, 0, 1, 1⟩)]

/-- Witness for C8: the at-capacity case and the above-capacity case are
instantiated on the sample coin ledger. -/
theorem C8_ledger_eviction_topN_witness :
    (sampleUsers.length ≤ 1000 ∧ clean_coin_stats 1000 sampleUsers = sampleUsers) ∧
      (2 < sampleUsers.length ∧ (sampleUsers.map Prod.fst).Nodup ∧
        (clean_coin_stats 2 sampleUsers).length = 2) := by
  refine ⟨⟨by decide, C8_ledger_eviction_topN.1 1000 sampleUsers (by decide)⟩,
    by decide, by decide, (C8_ledger_eviction_topN.2.1 2 sampleUsers (by decide) (by decide)).1⟩

/-- Witness for C10 at a concrete never-seen instrument over the sample
global data. -/
theorem C10_global_store_fallback_witness :
    alistHas ([] : List (String × List TradeInfo)) "ETH" = false ∧
      get_trade_data [] sampleTrades (some "ETH") = sampleTrades ∧
      ∃ r, (process_trade_data 600000 30 []
        (get_trade_data [] sampleTrades (some "ETH"))).1 = some r := by
  have h := C10_global_store_fallback ([] : List (String × List TradeInfo)) sampleTrades
  exact ⟨rfl, h.2.1 "ETH" rfl,
    h.2.2 "ETH" 600000 30 [] rfl (by decide) (by decide)⟩

end HyperPulse
